import Mathlib

/-!
Verification of the Project-KV key-value store (kvsys crate).

The development shallowly embeds the Rust source:
* keys are 8-byte strings, values 256-byte strings (`src/kvstorage/mod.rs`);
* the in-memory index (`BTreeMap<InternKey, Option<Arc<Value>>>`) is an
  association list from the encoded 64-bit key to `Option Value`, kept sorted
  strictly ascending by key (the `Inv` predicate);
* the engine operations `get`/`put`/`delete`/`scan`, the background disk
  logger, log replay (`KVStorage::from_existing_file`), the standalone
  `DiskLogReader::next_log`, the request codec
  (`Request::deserialize_from` in `src/kvserver/protocol.rs`) and the server
  scan chunking loop (`handle_connection` in `src/kvserver/mod.rs`)
  are translated function by function.
-/

namespace KVSys

/-- A byte, the element type of Rust `u8` buffers. -/
abbrev Byte := Fin 256

/-- `KEY_SIZE` from `src/kvstorage/mod.rs`. -/
def KEY_SIZE : Nat := 8

/-- `VALUE_SIZE` from `src/kvstorage/mod.rs`. -/
def VALUE_SIZE : Nat := 256

/-- `Key`: a fixed-width 8-byte string (`struct Key { data: [u8; KEY_SIZE] }`). -/
abbrev Key := {l : List Byte // l.length = KEY_SIZE}

/-- `Value`: a fixed-width 256-byte string (`struct Value { data: [u8; VALUE_SIZE] }`). -/
abbrev Value := {l : List Byte // l.length = VALUE_SIZE}

/-- `Key::encode_raw`: reinterpret a byte string as a big-endian unsigned
integer (`u64::from_be` of the 8 key bytes). -/
def encodeRaw (l : List Byte) : Nat :=
  l.foldl (fun a b => a * 256 + b.val) 0

/-- `Key::encode`: the big-endian numeric interpretation of the key bytes. -/
def Key.encode (k : Key) : Nat := encodeRaw k.val

/-- Helper for `Key::decode`: the `i` big-endian base-256 digits of `n`. -/
def decodeAux : Nat → Nat → List Byte
  | 0, _ => []
  | i + 1, n => decodeAux i (n / 256) ++ [⟨n % 256, Nat.mod_lt n (by decide)⟩]

theorem decodeAux_length (i n : Nat) : (decodeAux i n).length = i := by
  induction i generalizing n with
  | zero => rfl
  | succ i ih => simp [decodeAux, ih]

/-- `Key::decode`: rebuild the 8 key bytes from the big-endian numeric form
(`u64::to_be` viewed as a byte array). -/
def Key.decode (n : Nat) : Key := ⟨decodeAux KEY_SIZE n, decodeAux_length _ _⟩

theorem encodeRaw_nil : encodeRaw [] = 0 := rfl

theorem encodeRaw_foldl (l : List Byte) (i : Nat) :
    l.foldl (fun a b => a * 256 + b.val) i = i * 256 ^ l.length + encodeRaw l := by
  induction l generalizing i with
  | nil => simp [encodeRaw]
  | cons a t ih =>
    show t.foldl _ (i * 256 + a.val) = _
    rw [ih (i * 256 + a.val)]
    have ha : encodeRaw (a :: t) = a.val * 256 ^ t.length + encodeRaw t := by
      show t.foldl _ (0 * 256 + a.val) = _
      rw [ih (0 * 256 + a.val)]
      ring
    rw [ha]
    simp [List.length_cons, pow_succ]
    ring

theorem encodeRaw_cons (a : Byte) (t : List Byte) :
    encodeRaw (a :: t) = a.val * 256 ^ t.length + encodeRaw t := by
  show t.foldl _ (0 * 256 + a.val) = _
  rw [encodeRaw_foldl]
  ring

theorem encodeRaw_lt (l : List Byte) : encodeRaw l < 256 ^ l.length := by
  induction l with
  | nil => simp [encodeRaw]
  | cons a t ih =>
    rw [encodeRaw_cons]
    have hb : a.val + 1 ≤ 256 := a.isLt
    calc a.val * 256 ^ t.length + encodeRaw t
        < a.val * 256 ^ t.length + 256 ^ t.length := by omega
      _ = (a.val + 1) * 256 ^ t.length := by ring
      _ ≤ 256 * 256 ^ t.length := Nat.mul_le_mul_right _ hb
      _ = 256 ^ (a :: t).length := by rw [List.length_cons]; ring

theorem encodeRaw_append_single (l : List Byte) (b : Byte) :
    encodeRaw (l ++ [b]) = encodeRaw l * 256 + b.val := by
  unfold encodeRaw
  rw [List.foldl_append]
  rfl

theorem decodeAux_encodeRaw (l : List Byte) :
    decodeAux l.length (encodeRaw l) = l := by
  induction l using List.reverseRecOn with
  | nil => rfl
  | append_singleton t b ih =>
    rw [encodeRaw_append_single]
    have hlen : (t ++ [b]).length = t.length + 1 := by simp
    rw [hlen]
    show decodeAux t.length ((encodeRaw t * 256 + b.val) / 256) ++ _ = _
    have hdiv : (encodeRaw t * 256 + b.val) / 256 = encodeRaw t := by
      have := b.isLt
      omega
    have hmod : (encodeRaw t * 256 + b.val) % 256 = b.val := by
      have := b.isLt
      omega
    rw [hdiv, ih]
    congr 1
    simp only [List.cons.injEq, and_true]
    exact Fin.ext hmod

theorem encodeRaw_decodeAux (i n : Nat) (h : n < 256 ^ i) :
    encodeRaw (decodeAux i n) = n := by
  induction i generalizing n with
  | zero =>
    simp [pow_zero] at h
    simp [decodeAux, encodeRaw, h]
  | succ i ih =>
    show encodeRaw (decodeAux i (n / 256) ++ [_]) = n
    rw [encodeRaw_append_single]
    have hdiv : n / 256 < 256 ^ i := by
      rw [pow_succ] at h
      omega
    rw [ih _ hdiv]
    show n / 256 * 256 + n % 256 = n
    omega

theorem Key.decode_encode (k : Key) : Key.decode k.encode = k := by
  rcases k with ⟨l, hl⟩
  apply Subtype.ext
  show decodeAux KEY_SIZE (encodeRaw l) = l
  rw [← hl]
  exact decodeAux_encodeRaw l

theorem Key.encode_decode (n : Nat) (h : n < 256 ^ KEY_SIZE) :
    (Key.decode n).encode = n := by
  show encodeRaw (decodeAux KEY_SIZE n) = n
  exact encodeRaw_decodeAux _ _ h

theorem Key.encode_inj {k1 k2 : Key} (h : k1.encode = k2.encode) : k1 = k2 := by
  have h1 := Key.decode_encode k1
  have h2 := Key.decode_encode k2
  rw [← h1, ← h2, h]

theorem Key.encode_lt (k : Key) : k.encode < 256 ^ KEY_SIZE := by
  have := encodeRaw_lt k.val
  rw [k.property] at this
  exact this

/-! ## The in-memory index

`BTreeMap<InternKey, Option<Arc<Value>>>` is modelled as an association list
from the encoded key to `Option Value`, kept sorted strictly ascending (the
iteration order of the B-tree).  `lookupS`, `insertS`, `eraseS` model
`BTreeMap::get`, `BTreeMap::insert`, `BTreeMap::remove`; `setNoneS` models
`get_mut` followed by the assignment of `None` done by `KVStorage::delete`. -/

abbrev Storage := List (Nat × Option Value)

def lookupS (k : Nat) : Storage → Option (Option Value)
  | [] => none
  | (k1, v) :: t => if k1 = k then some v else lookupS k t

def insertS (k : Nat) (v : Option Value) : Storage → Storage
  | [] => [(k, v)]
  | (k1, v1) :: t =>
    if k < k1 then (k, v) :: (k1, v1) :: t
    else if k = k1 then (k, v) :: t
    else (k1, v1) :: insertS k v t

def eraseS (k : Nat) : Storage → Storage
  | [] => []
  | (k1, v1) :: t => if k1 = k then t else (k1, v1) :: eraseS k t

def setNoneS (k : Nat) : Storage → Storage
  | [] => []
  | (k1, v1) :: t => if k1 = k then (k1, none) :: t else (k1, v1) :: setNoneS k t

/-- Entries whose value slot is `Some` (the live, non-tombstone entries). -/
def filterLive (m : Storage) : Storage := m.filter (fun p => p.2.isSome)

/-- Sortedness and 64-bit key bound maintained by the engine: `BTreeMap`
iterates keys in ascending order and all keys come from `Key::encode`. -/
def Inv (m : Storage) : Prop :=
  List.Pairwise (fun a b => a.1 < b.1) m ∧ ∀ p ∈ m, p.1 < 256 ^ KEY_SIZE

/-! ## Log records and the storage engine state

`DiskLogMessage` (minus the internal `Shutdown` marker) and
`KVStorage::serialize`.  The engine state packs the in-memory index, the
channel of log messages sent to the background logger thread but not yet
written (`queue`), the bytes actually written to the log file (`file`), and
whether the logger thread is still alive (it dies via `unwrap()` on its first
failed write). -/

inductive LogRecord where
  | put (k : Key) (v : Value)
  | del (k : Key)
deriving DecidableEq

/-- `KVStorage::serialize` / `DiskLogMessage::serialize`: tag byte then the
raw key (and value) bytes. -/
def serializeRecord : LogRecord → List Byte
  | .put k v => (0x50 : Byte) :: (k.val ++ v.val)
  | .del k => (0x44 : Byte) :: k.val

structure KVState where
  mem : Storage
  queue : List LogRecord
  file : List Byte
  loggerAlive : Bool
deriving DecidableEq

/-- `KVStorage::new` over a fresh empty log file. -/
def freshState : KVState := ⟨[], [], [], true⟩

namespace KVStorage

/-- `KVStorage::get`: look the encoded key up; a missing entry and a
tombstone both give `None`. -/
def get (st : KVState) (k : Key) : Option Value :=
  match lookupS k.encode st.mem with
  | some mv => mv
  | none => none

/-- `KVStorage::put`: send the `Put` message to the logger channel and insert
`Some v` into the index.  The Rust function returns `()`. -/
def put (st : KVState) (k : Key) (v : Value) : KVState :=
  { st with queue := st.queue ++ [LogRecord.put k v],
            mem := insertS k.encode (some v) st.mem }

/-- `KVStorage::delete`: if the index holds an entry for the key (live or
tombstone), send the `Delete` message, overwrite the slot with `None` and
return 1; otherwise return 0 and do nothing. -/
def delete (st : KVState) (k : Key) : KVState × Nat :=
  match lookupS k.encode st.mem with
  | some _ => ({ st with queue := st.queue ++ [LogRecord.del k],
                         mem := setNoneS k.encode st.mem }, 1)
  | none => (st, 0)

/-- `KVStorage::scan`: `mem_storage.range((Included(k1), Excluded(k2)))`,
filtering out tombstones and decoding the keys.  `BTreeMap::range` panics
when the start of the range lies above its end, modelled by `none`. -/
def scan (st : KVState) (k1 k2 : Key) : Option (List (Key × Value)) :=
  if k1.encode ≤ k2.encode then
    some ((st.mem.filter
        (fun p => decide (k1.encode ≤ p.1 ∧ p.1 < k2.encode))).filterMap
      (fun p => p.2.map (fun v => (Key.decode p.1, v))))
  else none

end KVStorage

/-- One step of the background logger thread (`create_disk_logger`): receive
the next queued message and `write` it to the file; on a write failure the
`unwrap()` panics the thread, dropping the message. -/
def loggerStep (writeOk : Bool) (st : KVState) : KVState :=
  if st.loggerAlive then
    match st.queue with
    | [] => st
    | r :: rest =>
      if writeOk then { st with queue := rest, file := st.file ++ serializeRecord r }
      else { st with queue := rest, loggerAlive := false }
  else st

/-- The bytes of the log file once the engine is dropped: `Drop` sends
`Shutdown` and joins the logger, which first drains the queued messages. -/
def logFileAfterDrop (st : KVState) : List Byte :=
  st.file ++ (st.queue.map serializeRecord).flatten

/-! ## Client-visible operation sequences -/

inductive EngineOp where
  | opPut (k : Key) (v : Value)
  | opDel (k : Key)

def opKey : EngineOp → Key
  | .opPut k _ => k
  | .opDel k => k

def applyOp (st : KVState) : EngineOp → KVState
  | .opPut k v => KVStorage.put st k v
  | .opDel k => (KVStorage.delete st k).1

def applyOps (st : KVState) : List EngineOp → KVState
  | [] => st
  | op :: ops => applyOps (applyOp st op) ops

/-! ## Recovery: `KVStorage::from_existing_file`

The loop reads a 1-byte tag (EOF here ends the loop), then always reads an
8-byte key (`?` aborts on a short read), then: on tag `b'P'` reads a 256-byte
value and inserts, on tag `b'D'` removes the key, and on any other tag falls
through both branches and continues with the next iteration. -/

def from_existing_file (bytes : List Byte) (mem : Storage) : Except Unit Storage :=
  match bytes with
  | [] => .ok mem
  | op :: rest =>
    if hk : rest.length < KEY_SIZE then .error ()
    else
      let key := rest.take KEY_SIZE
      let rest1 := rest.drop KEY_SIZE
      if op.val = 0x50 then
        if hv : rest1.length < VALUE_SIZE then .error ()
        else
          from_existing_file (rest1.drop VALUE_SIZE)
            (insertS (encodeRaw key)
              (some ⟨rest1.take VALUE_SIZE, by
                rw [List.length_take]; omega⟩) mem)
      else if op.val = 0x44 then
        from_existing_file rest1 (eraseS (encodeRaw key) mem)
      else
        from_existing_file rest1 mem
termination_by bytes.length
decreasing_by
  · simp [rest1, List.length_drop]; omega
  · simp [rest1, List.length_drop]; omega
  · simp [rest1, List.length_drop]; omega

/-- `DiskLogReader::next_log` (`src/kvstorage/disklog.rs`): unlike
`from_existing_file`, an unknown tag byte is an error
("incorrect disk log format"). -/
def next_log : List Byte → Except Unit (Option (LogRecord × List Byte))
  | [] => .ok none
  | op :: rest =>
    if hk : rest.length < KEY_SIZE then .error ()
    else
      let key : Key := ⟨rest.take KEY_SIZE, by rw [List.length_take]; omega⟩
      let rest1 := rest.drop KEY_SIZE
      if op.val = 0x50 then
        if hv : rest1.length < VALUE_SIZE then .error ()
        else
          .ok (some (LogRecord.put key
            ⟨rest1.take VALUE_SIZE, by rw [List.length_take]; omega⟩,
            rest1.drop VALUE_SIZE))
      else if op.val = 0x44 then
        .ok (some (LogRecord.del key, rest1))
      else .error ()

/-- Record-level replay of a single log record, the effect one loop iteration
of `from_existing_file` has on the partial index. -/
def applyRecord (m : Storage) : LogRecord → Storage
  | .put k v => insertS k.encode (some v) m
  | .del k => eraseS k.encode m

def replayRecords (m : Storage) : List LogRecord → Storage
  | [] => m
  | r :: rs => replayRecords (applyRecord m r) rs

/-! ## Lexicographic order on byte strings -/

/-- Strict lexicographic order on byte strings (the order of `[u8]`). -/
def lexLt : List Byte → List Byte → Bool
  | [], [] => false
  | [], _ :: _ => true
  | _ :: _, [] => false
  | a :: t1, b :: t2 => decide (a.val < b.val) || (decide (a.val = b.val) && lexLt t1 t2)

/-! ## Server scan chunking (`handle_connection`, `src/kvserver/mod.rs`) -/

/-- `CHUNK_MAX_SIZE` from `src/chunktps/mod.rs`. -/
def CHUNK_MAX_SIZE : Nat := 65535

/-- `KV_PAIR_SERIALIZED_SIZE` from `src/kvserver/protocol.rs`. -/
def KV_PAIR_SERIALIZED_SIZE : Nat := KEY_SIZE + VALUE_SIZE

/-- `ROW_PER_CHUNK` in the `Request::Scan` arm of `handle_connection`. -/
def ROW_PER_CHUNK : Nat := (CHUNK_MAX_SIZE - 1) / KV_PAIR_SERIALIZED_SIZE

/-- The slices taken by the loop `for i in (0..scan_result.len()).step_by(ROW_PER_CHUNK)`:
each iteration sends the pairs at positions `[i, min (i + ROW_PER_CHUNK) len)`. -/
def chunkPairs (l : List (Key × Value)) : List (List (Key × Value)) :=
  if l = [] then []
  else l.take ROW_PER_CHUNK :: chunkPairs (l.drop ROW_PER_CHUNK)
termination_by l.length
decreasing_by
  rename_i h
  have hl : 0 < l.length := List.length_pos.mpr h
  simp [List.length_drop, ROW_PER_CHUNK, CHUNK_MAX_SIZE, KV_PAIR_SERIALIZED_SIZE,
    KEY_SIZE, VALUE_SIZE]
  omega

/-- `ServerReplyChunk::KVPairs(..).serialize()`: the `b'P'` tag followed by
the concatenated key and value bytes of each pair. -/
def serializeKVPairsChunk (pairs : List (Key × Value)) : List Byte :=
  (0x50 : Byte) :: (pairs.map (fun p => p.1.val ++ p.2.val)).flatten

/-- The chunk payloads written for one `Request::Scan`: one `KVPairs` chunk
per slice, then the empty sentinel chunk `write_chunk(vec![])`. -/
def handleScanReply (scanResult : List (Key × Value)) : List (List Byte) :=
  (chunkPairs scanResult).map serializeKVPairsChunk ++ [[]]

/-! ## The request codec (`Request::deserialize_from`, `src/kvserver/protocol.rs`) -/

inductive Request where
  | scan (k1 k2 : Key)
  | put (k : Key) (v : Value)
  | get (k : Key)
  | del (k : Key)
  | close
deriving DecidableEq

/-- `Request::deserialize_from`.  The Rust function `assert!`s the buffer is
non-empty (modelled by `none`), then dispatches on the opcode byte, checking
the total length for `S`/`P`/`G`/`D` — but not for `C`.  A failed length
check or an unknown opcode is a `ProtocolError` (modelled by `Except.error`). -/
def deserialize_from : List Byte → Option (Except Unit Request)
  | [] => none
  | b :: rest =>
    some <|
      if b.val = 0x53 then
        if h : rest.length = KEY_SIZE * 2 then
          .ok (.scan ⟨rest.take KEY_SIZE, by rw [List.length_take]; omega⟩
            ⟨(rest.drop KEY_SIZE).take KEY_SIZE, by
              rw [List.length_take, List.length_drop]; omega⟩)
        else .error ()
      else if b.val = 0x50 then
        if h : rest.length = KEY_SIZE + VALUE_SIZE then
          .ok (.put ⟨rest.take KEY_SIZE, by rw [List.length_take]; omega⟩
            ⟨(rest.drop KEY_SIZE).take VALUE_SIZE, by
              rw [List.length_take, List.length_drop]; omega⟩)
        else .error ()
      else if b.val = 0x47 then
        if h : rest.length = KEY_SIZE then
          .ok (.get ⟨rest.take KEY_SIZE, by rw [List.length_take]; omega⟩)
        else .error ()
      else if b.val = 0x44 then
        if h : rest.length = KEY_SIZE then
          .ok (.del ⟨rest.take KEY_SIZE, by rw [List.length_take]; omega⟩)
        else .error ()
      else if b.val = 0x43 then
        .ok .close
      else .error ()

/-! ## Association-list lemmas -/

theorem lookupS_insertS_self (k : Nat) (v : Option Value) (m : Storage) :
    lookupS k (insertS k v m) = some v := by
  induction m with
  | nil => simp [insertS, lookupS]
  | cons p t ih =>
    rcases p with ⟨k1, v1⟩
    by_cases h1 : k < k1
    · simp [insertS, h1, lookupS]
    · by_cases h2 : k = k1
      · simp [insertS, h1, h2, lookupS]
      · have hne : ¬ k1 = k := fun h => h2 h.symm
        simp [insertS, h1, h2, lookupS, hne, ih]

theorem lookupS_insertS_ne (k k9 : Nat) (v : Option Value) (m : Storage)
    (hne : k9 ≠ k) : lookupS k9 (insertS k v m) = lookupS k9 m := by
  have hkk9 : ¬ (k = k9) := Ne.symm hne
  induction m with
  | nil => simp [insertS, lookupS, hkk9]
  | cons p t ih =>
    rcases p with ⟨k1, v1⟩
    by_cases h1 : k < k1
    · simp [insertS, h1, lookupS, hkk9]
    · by_cases h2 : k = k1
      · subst h2
        simp [insertS, h1, lookupS, hkk9]
      · simp only [insertS, if_neg h1, if_neg h2, lookupS]
        by_cases h3 : k1 = k9
        · simp [h3]
        · simp [h3, ih]

theorem lookupS_setNoneS_self (k : Nat) (m : Storage) (mv : Option Value)
    (h : lookupS k m = some mv) : lookupS k (setNoneS k m) = some none := by
  induction m with
  | nil => simp [lookupS] at h
  | cons p t ih =>
    rcases p with ⟨k1, v1⟩
    by_cases h1 : k1 = k
    · simp [setNoneS, h1, lookupS]
    · simp only [lookupS, if_neg h1] at h
      simp [setNoneS, h1, lookupS, ih h]

theorem lookupS_setNoneS_ne (k k9 : Nat) (m : Storage) (hne : k9 ≠ k) :
    lookupS k9 (setNoneS k m) = lookupS k9 m := by
  induction m with
  | nil => simp [setNoneS]
  | cons p t ih =>
    rcases p with ⟨k1, v1⟩
    by_cases h1 : k1 = k
    · subst h1
      have h4 : ¬ (k1 = k9) := Ne.symm hne
      simp [setNoneS, lookupS, h4]
    · simp only [setNoneS, if_neg h1, lookupS]
      by_cases h3 : k1 = k9
      · simp [h3]
      · simp [h3, ih]

theorem lookupS_none_of_not_mem (k : Nat) (m : Storage)
    (h : ∀ p ∈ m, p.1 ≠ k) : lookupS k m = none := by
  induction m with
  | nil => rfl
  | cons p t ih =>
    rcases p with ⟨k1, v1⟩
    have h1 : k1 ≠ k := h (k1, v1) (by simp)
    simp only [lookupS, if_neg h1]
    exact ih (fun p hp => h p (by simp [hp]))

theorem lookupS_eq_some_iff_mem (k : Nat) (m : Storage) (w : Option Value)
    (hp : List.Pairwise (fun a b => a.1 < b.1) m) :
    lookupS k m = some w ↔ (k, w) ∈ m := by
  induction m with
  | nil => simp [lookupS]
  | cons p t ih =>
    rcases p with ⟨k1, v1⟩
    rcases List.pairwise_cons.mp hp with ⟨hhead, htail⟩
    by_cases h1 : k1 = k
    · subst h1
      have hlk : lookupS k1 ((k1, v1) :: t) = some v1 := by
        show (if k1 = k1 then some v1 else lookupS k1 t) = some v1
        rw [if_pos rfl]
      rw [hlk]
      constructor
      · intro h
        rw [Option.some.injEq] at h
        subst h
        exact List.mem_cons_self _ _
      · intro h
        rcases List.mem_cons.mp h with h | h
        · cases h
          rfl
        · have h5 : k1 < (k1, w).1 := hhead _ h
          simp at h5
    · simp only [lookupS, if_neg h1, List.mem_cons, Prod.mk.injEq]
      rw [ih htail]
      constructor
      · intro h
        exact Or.inr h
      · intro h
        rcases h with ⟨h, _⟩ | h
        · exact absurd h.symm h1
        · exact h

theorem keys_setNoneS (k : Nat) (m : Storage) :
    (setNoneS k m).map Prod.fst = m.map Prod.fst := by
  induction m with
  | nil => rfl
  | cons p t ih =>
    rcases p with ⟨k1, v1⟩
    by_cases h1 : k1 = k
    · simp [setNoneS, h1]
    · simp [setNoneS, h1, ih]

theorem mem_insertS (k : Nat) (v : Option Value) (m : Storage) (x : Nat × Option Value)
    (hx : x ∈ insertS k v m) : x = (k, v) ∨ x ∈ m := by
  induction m with
  | nil =>
    simp [insertS] at hx
    exact Or.inl hx
  | cons p t ih =>
    rcases p with ⟨k1, v1⟩
    by_cases h1 : k < k1
    · simp only [insertS, if_pos h1, List.mem_cons] at hx
      rcases hx with h | h
      · exact Or.inl h
      · exact Or.inr (by simpa using h)
    · by_cases h2 : k = k1
      · simp only [insertS, if_neg h1, if_pos h2, List.mem_cons] at hx
        rcases hx with h | h
        · exact Or.inl h
        · exact Or.inr (by simp [h])
      · simp only [insertS, if_neg h1, if_neg h2, List.mem_cons] at hx
        rcases hx with h | h
        · exact Or.inr (by simp [h])
        · rcases ih h with h | h
          · exact Or.inl h
          · exact Or.inr (by simp [h])

theorem insertS_of_forall_lt (k : Nat) (v : Option Value) (m : Storage)
    (h : ∀ p ∈ m, k < p.1) : insertS k v m = (k, v) :: m := by
  cases m with
  | nil => rfl
  | cons p t =>
    rcases p with ⟨k1, v1⟩
    have hk : k < k1 := h (k1, v1) (by simp)
    simp [insertS, hk]

theorem pairwise_insertS (k : Nat) (v : Option Value) (m : Storage)
    (hp : List.Pairwise (fun a b => a.1 < b.1) m) :
    List.Pairwise (fun a b => a.1 < b.1) (insertS k v m) := by
  induction m with
  | nil => simp [insertS]
  | cons p t ih =>
    rcases p with ⟨k1, v1⟩
    rcases List.pairwise_cons.mp hp with ⟨hhead, htail⟩
    by_cases h1 : k < k1
    · simp only [insertS, if_pos h1]
      refine List.pairwise_cons.mpr ⟨?_, hp⟩
      intro a ha
      rcases List.mem_cons.mp ha with h | h
      · rw [h]; exact h1
      · exact lt_trans h1 (hhead _ h)
    · by_cases h2 : k = k1
      · subst h2
        simp only [insertS, if_neg h1, if_pos rfl]
        exact List.pairwise_cons.mpr ⟨hhead, htail⟩
      · simp only [insertS, if_neg h1, if_neg h2]
        refine List.pairwise_cons.mpr ⟨?_, ih htail⟩
        intro a ha
        rcases mem_insertS _ _ _ _ ha with h | h
        · rw [h]
          show k1 < k
          omega
        · exact hhead _ h

theorem pairwise_setNoneS (k : Nat) (m : Storage)
    (hp : List.Pairwise (fun a b => a.1 < b.1) m) :
    List.Pairwise (fun a b => a.1 < b.1) (setNoneS k m) := by
  have h1 : List.Pairwise (· < ·) (m.map Prod.fst) :=
    (List.pairwise_map).mpr hp
  have h2 : List.Pairwise (· < ·) ((setNoneS k m).map Prod.fst) := by
    rw [keys_setNoneS]; exact h1
  exact (List.pairwise_map).mp h2

theorem eraseS_sublist (k : Nat) (m : Storage) : (eraseS k m).Sublist m := by
  induction m with
  | nil => simp [eraseS]
  | cons p t ih =>
    rcases p with ⟨k1, v1⟩
    by_cases h1 : k1 = k
    · simp only [eraseS, if_pos h1]
      exact (List.sublist_cons_self _ _)
    · simp only [eraseS, if_neg h1]
      exact ih.cons₂ _

theorem eraseS_of_not_mem (k : Nat) (m : Storage)
    (h : ∀ p ∈ m, p.1 ≠ k) : eraseS k m = m := by
  induction m with
  | nil => rfl
  | cons p t ih =>
    rcases p with ⟨k1, v1⟩
    have h1 : k1 ≠ k := h (k1, v1) (by simp)
    simp only [eraseS, if_neg h1]
    rw [ih (fun p hp => h p (by simp [hp]))]

theorem mem_filterLive (m : Storage) (p : Nat × Option Value)
    (hp : p ∈ filterLive m) : p ∈ m :=
  (List.mem_filter.mp hp).1

/-- The engine invariant is preserved by `put` and the index rewrite of
`delete`. -/
theorem Inv_insertS (k : Nat) (v : Option Value) (m : Storage)
    (hk : k < 256 ^ KEY_SIZE) (h : Inv m) : Inv (insertS k v m) := by
  refine ⟨pairwise_insertS _ _ _ h.1, ?_⟩
  intro p hp
  rcases mem_insertS _ _ _ _ hp with h1 | h1
  · rw [h1]; exact hk
  · exact h.2 _ h1

theorem Inv_setNoneS (k : Nat) (m : Storage) (h : Inv m) : Inv (setNoneS k m) := by
  refine ⟨pairwise_setNoneS _ _ h.1, ?_⟩
  intro p hp
  have hkeys : p.1 ∈ (setNoneS k m).map Prod.fst := List.mem_map_of_mem _ hp
  rw [keys_setNoneS] at hkeys
  rcases List.mem_map.mp hkeys with ⟨q, hq, hq1⟩
  rw [← hq1]
  exact h.2 _ hq

theorem Inv_applyOp (st : KVState) (op : EngineOp) (h : Inv st.mem) :
    Inv (applyOp st op).mem := by
  cases op with
  | opPut k v => exact Inv_insertS _ _ _ (Key.encode_lt k) h
  | opDel k =>
    show Inv (KVStorage.delete st k).1.mem
    unfold KVStorage.delete
    cases hl : lookupS k.encode st.mem with
    | none => exact h
    | some mv => exact Inv_setNoneS _ _ h

/-! ## `filterLive` against the index updates -/

theorem filterLive_insertS_some (k : Nat) (v : Value) (m : Storage)
    (hp : List.Pairwise (fun a b => a.1 < b.1) m) :
    filterLive (insertS k (some v) m) = insertS k (some v) (filterLive m) := by
  induction m with
  | nil => simp [insertS, filterLive]
  | cons p t ih =>
    rcases p with ⟨k1, v1⟩
    rcases List.pairwise_cons.mp hp with ⟨hhead, htail⟩
    have hlt : ∀ q ∈ filterLive t, k1 < q.1 := fun q hq => hhead _ (mem_filterLive _ _ hq)
    by_cases h1 : k < k1
    · simp only [insertS, if_pos h1]
      show (k, some v) :: filterLive ((k1, v1) :: t) = _
      have : ∀ q ∈ filterLive ((k1, v1) :: t), k < q.1 := by
        intro q hq
        rcases List.mem_cons.mp (mem_filterLive _ _ hq) with h | h
        · rw [h]; exact h1
        · exact lt_trans h1 (hhead _ h)
      rw [insertS_of_forall_lt _ _ _ this]
    · by_cases h2 : k = k1
      · subst h2
        simp only [insertS, if_neg h1, if_pos rfl]
        show (k, some v) :: filterLive t = _
        cases v1 with
        | none =>
          show _ = insertS k (some v) (filterLive t)
          rw [insertS_of_forall_lt _ _ _ (fun q hq => hhead _ (mem_filterLive _ _ hq))]
        | some w =>
          show _ = insertS k (some v) ((k, some w) :: filterLive t)
          simp [insertS]
      · simp only [insertS, if_neg h1, if_neg h2]
        cases v1 with
        | none =>
          show filterLive (insertS k (some v) t) = insertS k (some v) (filterLive t)
          exact ih htail
        | some w =>
          show (k1, some w) :: filterLive (insertS k (some v) t)
              = insertS k (some v) ((k1, some w) :: filterLive t)
          have hk1 : k1 < k := by omega
          rw [ih htail]
          simp [insertS, h1, h2]

theorem filterLive_setNoneS (k : Nat) (m : Storage)
    (hp : List.Pairwise (fun a b => a.1 < b.1) m) :
    filterLive (setNoneS k m) = eraseS k (filterLive m) := by
  induction m with
  | nil => rfl
  | cons p t ih =>
    rcases p with ⟨k1, v1⟩
    rcases List.pairwise_cons.mp hp with ⟨hhead, htail⟩
    by_cases h1 : k1 = k
    · subst h1
      simp only [setNoneS, if_pos rfl]
      show filterLive t = _
      cases v1 with
      | none =>
        show _ = eraseS k1 (filterLive t)
        rw [eraseS_of_not_mem _ _
          (fun q hq => by
            have := hhead _ (mem_filterLive _ _ hq)
            omega)]
      | some w =>
        show _ = eraseS k1 ((k1, some w) :: filterLive t)
        simp [eraseS]
    · simp only [setNoneS, if_neg h1]
      cases v1 with
      | none =>
        show filterLive (setNoneS k t) = eraseS k (filterLive t)
        exact ih htail
      | some w =>
        show (k1, some w) :: filterLive (setNoneS k t)
            = eraseS k ((k1, some w) :: filterLive t)
        rw [ih htail]
        simp [eraseS, h1]

/-! ## Single-record steps of `from_existing_file` -/

theorem take_len_append (l1 l2 : List Byte) (n : Nat) (h : l1.length = n) :
    (l1 ++ l2).take n = l1 := by
  subst h
  exact List.take_left _ _

theorem drop_len_append (l1 l2 : List Byte) (n : Nat) (h : l1.length = n) :
    (l1 ++ l2).drop n = l2 := by
  subst h
  exact List.drop_left _ _

theorem from_existing_file_nil (m : Storage) : from_existing_file [] m = .ok m := by
  rw [from_existing_file]

theorem from_existing_file_key_trunc (t : Byte) (rest : List Byte) (m : Storage)
    (h : rest.length < KEY_SIZE) : from_existing_file (t :: rest) m = .error () := by
  rw [from_existing_file]
  simp [h]

theorem from_existing_file_put_step (k8 v256 bs : List Byte) (m : Storage)
    (hk : k8.length = KEY_SIZE) (hv : v256.length = VALUE_SIZE) :
    from_existing_file ((0x50 : Byte) :: (k8 ++ (v256 ++ bs))) m
      = from_existing_file bs
          (insertS (encodeRaw k8) (some ⟨v256, hv⟩) m) := by
  have hlen : ¬ ((k8 ++ (v256 ++ bs)).length < KEY_SIZE) := by
    simp [List.length_append, hk]
  have htake : (k8 ++ (v256 ++ bs)).take KEY_SIZE = k8 := take_len_append _ _ _ hk
  have hdrop : (k8 ++ (v256 ++ bs)).drop KEY_SIZE = v256 ++ bs := drop_len_append _ _ _ hk
  have hvlen : ¬ ((v256 ++ bs).length < VALUE_SIZE) := by
    simp [List.length_append, hv]
  have hvtake : (v256 ++ bs).take VALUE_SIZE = v256 := take_len_append _ _ _ hv
  have hvdrop : (v256 ++ bs).drop VALUE_SIZE = bs := drop_len_append _ _ _ hv
  rw [from_existing_file]
  simp only [dif_neg hlen, htake, hdrop, dif_neg hvlen, hvtake, hvdrop,
    show ((0x50 : Byte)).val = 0x50 from rfl, if_pos rfl, if_true]

theorem from_existing_file_val_trunc (k8 more : List Byte) (m : Storage)
    (hk : k8.length = KEY_SIZE) (hm : more.length < VALUE_SIZE) :
    from_existing_file ((0x50 : Byte) :: (k8 ++ more)) m = .error () := by
  have hlen : ¬ ((k8 ++ more).length < KEY_SIZE) := by
    simp [List.length_append, hk]
  have hdrop : (k8 ++ more).drop KEY_SIZE = more := drop_len_append _ _ _ hk
  rw [from_existing_file]
  simp only [dif_neg hlen, hdrop, show ((0x50 : Byte)).val = 0x50 from rfl, if_pos rfl,
    if_true, dif_pos hm]

theorem from_existing_file_del_step (k8 bs : List Byte) (m : Storage)
    (hk : k8.length = KEY_SIZE) :
    from_existing_file ((0x44 : Byte) :: (k8 ++ bs)) m
      = from_existing_file bs (eraseS (encodeRaw k8) m) := by
  have hlen : ¬ ((k8 ++ bs).length < KEY_SIZE) := by
    simp [List.length_append, hk]
  have htake : (k8 ++ bs).take KEY_SIZE = k8 := take_len_append _ _ _ hk
  have hdrop : (k8 ++ bs).drop KEY_SIZE = bs := drop_len_append _ _ _ hk
  rw [from_existing_file]
  simp only [dif_neg hlen, htake, hdrop,
    show ((0x44 : Byte)).val = 0x44 from rfl,
    show ¬ ((0x44 : Byte)).val = 0x50 from by decide, if_neg, if_pos rfl]
  simp

theorem from_existing_file_skip_step (t : Byte) (k8 bs : List Byte) (m : Storage)
    (ht1 : t.val ≠ 0x50) (ht2 : t.val ≠ 0x44) (hk : k8.length = KEY_SIZE) :
    from_existing_file (t :: (k8 ++ bs)) m = from_existing_file bs m := by
  have hlen : ¬ ((k8 ++ bs).length < KEY_SIZE) := by
    simp [List.length_append, hk]
  have hdrop : (k8 ++ bs).drop KEY_SIZE = bs := drop_len_append _ _ _ hk
  rw [from_existing_file]
  simp only [dif_neg hlen, hdrop, if_neg ht1, if_neg ht2]

/-! ## Replay of a serialized record stream -/

theorem replayRecords_append (m : Storage) (rs : List LogRecord) (r : LogRecord) :
    replayRecords m (rs ++ [r]) = applyRecord (replayRecords m rs) r := by
  induction rs generalizing m with
  | nil => rfl
  | cons r1 rs ih =>
    show replayRecords (applyRecord m r1) (rs ++ [r]) = _
    rw [ih]
    rfl

theorem from_existing_file_serializeRecords (rs : List LogRecord) (m : Storage) :
    from_existing_file ((rs.map serializeRecord).flatten) m = .ok (replayRecords m rs) := by
  induction rs generalizing m with
  | nil => exact from_existing_file_nil m
  | cons r rs ih =>
    show from_existing_file (serializeRecord r ++ (rs.map serializeRecord).flatten) m = _
    cases r with
    | put k v =>
      show from_existing_file (((0x50 : Byte) :: (k.val ++ v.val)) ++ _) m = _
      rw [List.cons_append, List.append_assoc,
        from_existing_file_put_step k.val v.val _ m k.property v.property, ih]
      rfl
    | del k =>
      show from_existing_file (((0x44 : Byte) :: k.val) ++ _) m = _
      rw [List.cons_append, from_existing_file_del_step k.val _ m k.property, ih]
      rfl

/-! ## The recovery/runtime correspondence -/

theorem applyOps_file (st : KVState) (ops : List EngineOp) :
    (applyOps st ops).file = st.file := by
  induction ops generalizing st with
  | nil => rfl
  | cons op ops ih =>
    show (applyOps (applyOp st op) ops).file = _
    rw [ih]
    cases op with
    | opPut k v => rfl
    | opDel k =>
      show (KVStorage.delete st k).1.file = st.file
      unfold KVStorage.delete
      cases lookupS k.encode st.mem with
      | none => rfl
      | some mv => rfl

theorem replay_invariant (ops : List EngineOp) (st : KVState) (m0 : Storage)
    (hInv : Inv st.mem) (hrep : replayRecords m0 st.queue = filterLive st.mem) :
    replayRecords m0 (applyOps st ops).queue = filterLive (applyOps st ops).mem := by
  induction ops generalizing st with
  | nil => exact hrep
  | cons op ops ih =>
    show replayRecords m0 (applyOps (applyOp st op) ops).queue = _
    refine ih (applyOp st op) (Inv_applyOp st op hInv) ?_
    cases op with
    | opPut k v =>
      show replayRecords m0 (st.queue ++ [LogRecord.put k v])
          = filterLive (insertS k.encode (some v) st.mem)
      rw [replayRecords_append, hrep, filterLive_insertS_some _ _ _ hInv.1]
      rfl
    | opDel k =>
      show replayRecords m0 (KVStorage.delete st k).1.queue
          = filterLive (KVStorage.delete st k).1.mem
      unfold KVStorage.delete
      cases hl : lookupS k.encode st.mem with
      | none => exact hrep
      | some mv =>
        show replayRecords m0 (st.queue ++ [LogRecord.del k])
            = filterLive (setNoneS k.encode st.mem)
        rw [replayRecords_append, hrep, filterLive_setNoneS _ _ hInv.1]
        rfl

theorem Inv_fresh : Inv freshState.mem := ⟨List.Pairwise.nil, by simp [freshState]⟩

theorem Inv_applyOps (st : KVState) (ops : List EngineOp) (h : Inv st.mem) :
    Inv (applyOps st ops).mem := by
  induction ops generalizing st with
  | nil => exact h
  | cons op ops ih => exact ih _ (Inv_applyOp st op h)

/-! ## Lexicographic order agrees with the big-endian numeric order -/

theorem lexLt_iff_encodeRaw (l1 l2 : List Byte) (hlen : l1.length = l2.length) :
    lexLt l1 l2 = true ↔ encodeRaw l1 < encodeRaw l2 := by
  induction l1 generalizing l2 with
  | nil =>
    cases l2 with
    | nil => simp [lexLt, encodeRaw]
    | cons b t2 => simp at hlen
  | cons a t1 ih =>
    cases l2 with
    | nil => simp at hlen
    | cons b t2 =>
      have ht : t1.length = t2.length := by simpa using hlen
      have he1 : encodeRaw t1 < 256 ^ t1.length := encodeRaw_lt t1
      have he2 : encodeRaw t2 < 256 ^ t2.length := encodeRaw_lt t2
      rw [encodeRaw_cons, encodeRaw_cons, ht]
      rcases Nat.lt_trichotomy a.val b.val with hab | hab | hab
      · have hlex : lexLt (a :: t1) (b :: t2) = true := by
          simp [lexLt, hab]
        rw [hlex]
        simp only [true_iff]
        calc a.val * 256 ^ t2.length + encodeRaw t1
            < a.val * 256 ^ t2.length + 256 ^ t2.length := by rw [← ht]; omega
          _ = (a.val + 1) * 256 ^ t2.length := by ring
          _ ≤ b.val * 256 ^ t2.length := Nat.mul_le_mul_right _ (by omega)
          _ ≤ b.val * 256 ^ t2.length + encodeRaw t2 := Nat.le_add_right _ _
      · have hlex : lexLt (a :: t1) (b :: t2) = lexLt t1 t2 := by
          simp [lexLt, hab]
        rw [hlex, hab, Nat.add_lt_add_iff_left]
        exact ih t2 ht
      · have hlex : lexLt (a :: t1) (b :: t2) = false := by
          simp [lexLt]
          omega
        rw [hlex]
        simp only [Bool.false_eq_true, false_iff, not_lt]
        calc b.val * 256 ^ t2.length + encodeRaw t2
            ≤ b.val * 256 ^ t2.length + 256 ^ t2.length := by omega
          _ = (b.val + 1) * 256 ^ t2.length := by ring
          _ ≤ a.val * 256 ^ t2.length := Nat.mul_le_mul_right _ (by omega)
          _ ≤ a.val * 256 ^ t2.length + encodeRaw t1 := Nat.le_add_right _ _

/-! ## Chunking lemmas -/

theorem ROW_PER_CHUNK_eq : ROW_PER_CHUNK = 248 := by decide

theorem chunkPairs_nil : chunkPairs [] = [] := by
  rw [chunkPairs, if_pos rfl]

theorem chunkPairs_cons (l : List (Key × Value)) (h : l ≠ []) :
    chunkPairs l = l.take ROW_PER_CHUNK :: chunkPairs (l.drop ROW_PER_CHUNK) := by
  rw [chunkPairs]
  simp [h]

theorem chunkPairs_length (l : List (Key × Value)) :
    (chunkPairs l).length = (l.length + (ROW_PER_CHUNK - 1)) / ROW_PER_CHUNK := by
  have hR : ROW_PER_CHUNK = 248 := ROW_PER_CHUNK_eq
  suffices hgen : ∀ (n : Nat) (l : List (Key × Value)), l.length = n →
      (chunkPairs l).length = (l.length + (ROW_PER_CHUNK - 1)) / ROW_PER_CHUNK from
    hgen l.length l rfl
  intro n
  induction n using Nat.strong_induction_on with
  | _ n ih =>
    intro l hn
    by_cases h : l = []
    · subst h
      simp [chunkPairs_nil, hR]
    · have hpos : 0 < l.length := List.length_pos.mpr h
      rw [chunkPairs_cons l h]
      have hdrop : (l.drop ROW_PER_CHUNK).length = l.length - ROW_PER_CHUNK := by
        simp [List.length_drop]
      have hlt : (l.drop ROW_PER_CHUNK).length < n := by
        rw [hdrop]
        omega
      rw [List.length_cons, ih _ (hn ▸ hlt) _ rfl, hdrop]
      rw [hR]
      omega

theorem chunkPairs_mem (l : List (Key × Value)) (c : List (Key × Value))
    (hc : c ∈ chunkPairs l) : c ≠ [] ∧ c.length ≤ ROW_PER_CHUNK := by
  suffices hgen : ∀ (n : Nat) (l c : List (Key × Value)), l.length = n →
      c ∈ chunkPairs l → c ≠ [] ∧ c.length ≤ ROW_PER_CHUNK from
    hgen l.length l c rfl hc
  intro n
  induction n using Nat.strong_induction_on with
  | _ n ih =>
    intro l c hn hc
    by_cases h : l = []
    · subst h
      rw [chunkPairs_nil] at hc
      simp at hc
    · have hpos : 0 < l.length := List.length_pos.mpr h
      rw [chunkPairs_cons l h] at hc
      rcases List.mem_cons.mp hc with h1 | h1
      · subst h1
        constructor
        · have hmin : (l.take ROW_PER_CHUNK).length = min ROW_PER_CHUNK l.length :=
            List.length_take _ _
          intro hcon
          rw [hcon] at hmin
          simp at hmin
          rw [ROW_PER_CHUNK_eq] at hmin
          omega
        · rw [List.length_take]
          omega
      · have hlt : (l.drop ROW_PER_CHUNK).length < n := by
          rw [List.length_drop, ROW_PER_CHUNK_eq]
          omega
        exact ih _ (hn ▸ hlt) _ _ rfl h1

theorem chunkPairs_flatten (l : List (Key × Value)) :
    (chunkPairs l).flatten = l := by
  suffices hgen : ∀ (n : Nat) (l : List (Key × Value)), l.length = n →
      (chunkPairs l).flatten = l from hgen l.length l rfl
  intro n
  induction n using Nat.strong_induction_on with
  | _ n ih =>
    intro l hn
    by_cases h : l = []
    · subst h
      simp [chunkPairs_nil]
    · have hpos : 0 < l.length := List.length_pos.mpr h
      rw [chunkPairs_cons l h]
      have hlt : (l.drop ROW_PER_CHUNK).length < n := by
        rw [List.length_drop, ROW_PER_CHUNK_eq]
        omega
      show l.take ROW_PER_CHUNK ++ (chunkPairs (l.drop ROW_PER_CHUNK)).flatten = l
      rw [ih _ (hn ▸ hlt) _ rfl, List.take_append_drop]

/-! ## Concrete fixtures -/

def key0 : Key := ⟨List.replicate 8 0, by decide⟩

def key1 : Key := ⟨List.replicate 7 0 ++ [1], by decide⟩

def value0 : Value := ⟨List.replicate 256 0, List.length_replicate _ _⟩

def value1 : Value := ⟨List.replicate 256 1, List.length_replicate _ _⟩

/-- Operations that touch neither the index slot nor the log records of an
unrelated key leave `get` unchanged. -/
theorem get_untouched (ops : List EngineOp) (st : KVState) (k : Key)
    (h : ∀ op ∈ ops, opKey op ≠ k) :
    KVStorage.get (applyOps st ops) k = KVStorage.get st k := by
  induction ops generalizing st with
  | nil => rfl
  | cons op ops ih =>
    show KVStorage.get (applyOps (applyOp st op) ops) k = _
    rw [ih (applyOp st op) (fun o ho => h o (by simp [ho]))]
    cases op with
    | opPut k9 v =>
      have hne : k9 ≠ k := h (EngineOp.opPut k9 v) (by simp)
      have henc : k.encode ≠ k9.encode := fun hcon => hne (Key.encode_inj hcon.symm)
      show KVStorage.get (KVStorage.put st k9 v) k = KVStorage.get st k
      unfold KVStorage.get KVStorage.put
      rw [lookupS_insertS_ne _ _ _ _ henc]
    | opDel k9 =>
      have hne : k9 ≠ k := h (EngineOp.opDel k9) (by simp)
      have henc : k.encode ≠ k9.encode := fun hcon => hne (Key.encode_inj hcon.symm)
      show KVStorage.get (KVStorage.delete st k9).1 k = KVStorage.get st k
      unfold KVStorage.get KVStorage.delete
      cases hl : lookupS k9.encode st.mem with
      | none => rfl
      | some mv =>
        show (match lookupS k.encode (setNoneS k9.encode st.mem) with
          | some mv => mv
          | none => none) = _
        rw [lookupS_setNoneS_ne _ _ _ henc]

/-! ## The claims -/

/-- Claim C1: after `put(K, V)`, `get(K)` returns `Some(V)`, and keeps doing
so across any further operations that are not a `put` or `delete` on that
same key K. -/
theorem c1_get_after_put (st : KVState) (k : Key) (v : Value) (ops : List EngineOp)
    (h : ∀ op ∈ ops, opKey op ≠ k) :
    KVStorage.get (applyOps (KVStorage.put st k v) ops) k = some v := by
  rw [get_untouched ops _ k h]
  unfold KVStorage.get KVStorage.put
  rw [lookupS_insertS_self]

/-- Witness for C1: a concrete put followed by a put on a different key. -/
theorem c1_witness :
    (∀ op ∈ [EngineOp.opPut key1 value1], opKey op ≠ key0)
    ∧ KVStorage.get
        (applyOps (KVStorage.put freshState key0 value0) [EngineOp.opPut key1 value1])
        key0 = some value0 :=
  ⟨by decide, c1_get_after_put freshState key0 value0 [EngineOp.opPut key1 value1] (by decide)⟩

/-- Claim C2 (amended): recovering the log file produced by a fresh engine
yields the engine's in-memory index with its tombstone entries removed,
not the index itself — replay handles a `DEL` record by removing the key
outright while the live engine keeps a tombstone. -/
theorem c2_recovery_equivalence (ops : List EngineOp) :
    from_existing_file (logFileAfterDrop (applyOps freshState ops)) []
      = Except.ok (filterLive (applyOps freshState ops).mem) := by
  unfold logFileAfterDrop
  rw [applyOps_file]
  show from_existing_file ([] ++ _) _ = _
  rw [List.nil_append, from_existing_file_serializeRecords,
    replay_invariant ops freshState [] Inv_fresh rfl]

/-- Counterexample for C2 as stated: after `put(K, V); delete(K)` the live
index still holds the key (as a tombstone), but replaying the produced log
file yields an empty index. -/
theorem c2_counterexample :
    from_existing_file
        (logFileAfterDrop
          (applyOps freshState [EngineOp.opPut key0 value0, EngineOp.opDel key0])) []
      ≠ Except.ok
          (applyOps freshState [EngineOp.opPut key0 value0, EngineOp.opDel key0]).mem := by
  rw [show logFileAfterDrop
        (applyOps freshState [EngineOp.opPut key0 value0, EngineOp.opDel key0])
      = (([LogRecord.put key0 value0, LogRecord.del key0]).map serializeRecord).flatten
      from rfl]
  rw [from_existing_file_serializeRecords]
  rw [show replayRecords ([] : Storage) [LogRecord.put key0 value0, LogRecord.del key0]
      = [] from rfl]
  rw [show (applyOps freshState [EngineOp.opPut key0 value0, EngineOp.opDel key0]).mem
      = [(key0.encode, none)] from rfl]
  simp

/-- Claim C3 (amended): deleting a key that currently holds a live entry
returns 1 and makes `get` return `None`; a second `delete` of the same key
returns 1 again (not 0), because the tombstone entry is still found by
`get_mut`. -/
theorem c3_delete_twice (st : KVState) (k : Key) (v : Value)
    (h : lookupS k.encode st.mem = some (some v)) :
    (KVStorage.delete st k).2 = 1
    ∧ KVStorage.get (KVStorage.delete st k).1 k = none
    ∧ (KVStorage.delete (KVStorage.delete st k).1 k).2 = 1 := by
  have h2 := lookupS_setNoneS_self k.encode st.mem (some v) h
  unfold KVStorage.delete KVStorage.get
  rw [h]
  refine ⟨rfl, ?_, ?_⟩
  · show (match lookupS k.encode (setNoneS k.encode st.mem) with
      | some mv => mv
      | none => none) = none
    rw [h2]
  · show (match lookupS k.encode (setNoneS k.encode st.mem) with
      | some _ => (_, 1)
      | none => (_, 0)).2 = 1
    rw [h2]

/-- Witness for C3: the concrete double delete of a freshly put key. -/
theorem c3_witness :
    lookupS key0.encode (KVStorage.put freshState key0 value0).mem = some (some value0)
    ∧ ((KVStorage.delete (KVStorage.put freshState key0 value0) key0).2 = 1
      ∧ KVStorage.get (KVStorage.delete (KVStorage.put freshState key0 value0) key0).1 key0
          = none
      ∧ (KVStorage.delete
          (KVStorage.delete (KVStorage.put freshState key0 value0) key0).1 key0).2 = 1) :=
  ⟨rfl, c3_delete_twice (KVStorage.put freshState key0 value0) key0 value0 rfl⟩

/-- Counterexample for C3 as stated: the second delete of the same key
returns 1, not 0. -/
theorem c3_counterexample :
    ¬ ((KVStorage.delete
        (KVStorage.delete (KVStorage.put freshState key0 value0) key0).1 key0).2 = 0) := by
  intro h
  exact absurd (h.symm.trans (show ((KVStorage.delete
    (KVStorage.delete (KVStorage.put freshState key0 value0) key0).1 key0).2 = 1) from rfl))
    (by decide)

/-- Claim C4: `delete(K)` on a key without an index entry returns 0 and
appends nothing; on a key with an entry (live or tombstone) it appends one
DEL record, sets the slot to the tombstone (the key stays in the index),
leaves the file untouched, and returns 1. -/
theorem c4_delete_spec (st : KVState) (k : Key) :
    (lookupS k.encode st.mem = none → KVStorage.delete st k = (st, 0))
    ∧ (∀ mv, lookupS k.encode st.mem = some mv →
        (KVStorage.delete st k).2 = 1
        ∧ (KVStorage.delete st k).1.queue = st.queue ++ [LogRecord.del k]
        ∧ lookupS k.encode (KVStorage.delete st k).1.mem = some none
        ∧ (KVStorage.delete st k).1.file = st.file) := by
  constructor
  · intro h
    unfold KVStorage.delete
    rw [h]
  · intro mv h
    unfold KVStorage.delete
    rw [h]
    exact ⟨rfl, rfl, lookupS_setNoneS_self _ _ _ h, rfl⟩

/-- Witness for C4: the absent case on a fresh engine and the present case
after one put. -/
theorem c4_witness :
    KVStorage.delete freshState key0 = (freshState, 0)
    ∧ ((KVStorage.delete (KVStorage.put freshState key0 value0) key0).2 = 1
      ∧ (KVStorage.delete (KVStorage.put freshState key0 value0) key0).1.queue
          = (KVStorage.put freshState key0 value0).queue ++ [LogRecord.del key0]
      ∧ lookupS key0.encode
          (KVStorage.delete (KVStorage.put freshState key0 value0) key0).1.mem = some none
      ∧ (KVStorage.delete (KVStorage.put freshState key0 value0) key0).1.file
          = (KVStorage.put freshState key0 value0).file) :=
  ⟨(c4_delete_spec freshState key0).1 rfl,
   (c4_delete_spec (KVStorage.put freshState key0 value0) key0).2 (some value0) rfl⟩

/-- Claim C5 (amended): `put` enqueues the PUT record to the logger channel
and updates the index; the call itself returns no error indication.  The
durable write happens later in the logger thread: if it fails, the thread
dies, the record never reaches the file, the caller is not notified, and
the index keeps the update (it is not rolled back). -/
theorem c5_put_logging (st : KVState) (k : Key) (v : Value)
    (hq : st.queue = []) (ha : st.loggerAlive = true) :
    (KVStorage.put st k v).queue = [LogRecord.put k v]
    ∧ (KVStorage.put st k v).file = st.file
    ∧ lookupS k.encode (KVStorage.put st k v).mem = some (some v)
    ∧ (loggerStep false (KVStorage.put st k v)).file = st.file
    ∧ (loggerStep false (KVStorage.put st k v)).loggerAlive = false
    ∧ lookupS k.encode (loggerStep false (KVStorage.put st k v)).mem = some (some v)
    ∧ (loggerStep true (KVStorage.put st k v)).file
        = st.file ++ serializeRecord (LogRecord.put k v) := by
  unfold KVStorage.put loggerStep
  simp [hq, ha, lookupS_insertS_self]

/-- Witness for C5 (amended) at a concrete put on the fresh engine. -/
theorem c5_witness :
    (freshState.queue = [] ∧ freshState.loggerAlive = true)
    ∧ ((KVStorage.put freshState key0 value0).queue = [LogRecord.put key0 value0]
      ∧ (KVStorage.put freshState key0 value0).file = freshState.file
      ∧ lookupS key0.encode (KVStorage.put freshState key0 value0).mem = some (some value0)
      ∧ (loggerStep false (KVStorage.put freshState key0 value0)).file = freshState.file
      ∧ (loggerStep false (KVStorage.put freshState key0 value0)).loggerAlive = false
      ∧ lookupS key0.encode (loggerStep false (KVStorage.put freshState key0 value0)).mem
          = some (some value0)
      ∧ (loggerStep true (KVStorage.put freshState key0 value0)).file
          = freshState.file ++ serializeRecord (LogRecord.put key0 value0)) :=
  ⟨⟨rfl, rfl⟩, c5_put_logging freshState key0 value0 rfl rfl⟩

/-- Counterexample for C5 as stated: with the log write failing, the file
stays empty while the index has already been updated by `put` (which
reported no error), so the index is not left unmodified. -/
theorem c5_counterexample :
    (loggerStep false (KVStorage.put freshState key0 value0)).file = []
    ∧ lookupS key0.encode (loggerStep false (KVStorage.put freshState key0 value0)).mem
        = some (some value0)
    ∧ lookupS key0.encode freshState.mem = none :=
  ⟨rfl, rfl, rfl⟩

/-- Claim C6: for `K1 ≤ K2` (in the engine's big-endian numeric key order),
`scan(K1, K2)` returns exactly the live entries with `K1 ≤ K < K2`, in
strictly ascending key order (hence with no duplicates), tombstones
filtered out. -/
theorem c6_scan_spec (st : KVState) (k1 k2 : Key) (hinv : Inv st.mem)
    (hle : k1.encode ≤ k2.encode) :
    KVStorage.scan st k1 k2 ≠ none
    ∧ ∀ l, KVStorage.scan st k1 k2 = some l →
        (∀ k v, (k, v) ∈ l ↔
          (k1.encode ≤ k.encode ∧ k.encode < k2.encode
            ∧ lookupS k.encode st.mem = some (some v)))
        ∧ List.Pairwise (fun a b : Key × Value => a.1.encode < b.1.encode) l := by
  unfold KVStorage.scan
  rw [if_pos hle]
  constructor
  · simp
  · intro l hl
    have hleq : ((st.mem.filter
        (fun p => decide (k1.encode ≤ p.1 ∧ p.1 < k2.encode))).filterMap
      (fun p => p.2.map (fun v => (Key.decode p.1, v)))) = l := by
      injection hl
    subst hleq
    constructor
    · intro k v
      constructor
      · intro hm
        rcases List.mem_filterMap.mp hm with ⟨q, hq, hfq⟩
        rcases List.mem_filter.mp hq with ⟨hqm, hpq⟩
        have hrange : k1.encode ≤ q.1 ∧ q.1 < k2.encode := of_decide_eq_true hpq
        rcases Option.map_eq_some'.mp hfq with ⟨w, hw, hgw⟩
        have hkk : Key.decode q.1 = k := congrArg Prod.fst hgw
        have hvv : w = v := congrArg Prod.snd hgw
        have hkey : k.encode = q.1 := by
          rw [← hkk]
          exact Key.encode_decode q.1 (hinv.2 q hqm)
        rw [hkey]
        refine ⟨hrange.1, hrange.2, ?_⟩
        apply (lookupS_eq_some_iff_mem _ _ _ hinv.1).mpr
        have hq2 : q.2 = some v := by rw [hw, hvv]
        rw [← hq2, Prod.mk.eta]
        exact hqm
      · rintro ⟨h1, h2, h3⟩
        have hmem : (k.encode, some v) ∈ st.mem :=
          (lookupS_eq_some_iff_mem _ _ _ hinv.1).mp h3
        apply List.mem_filterMap.mpr
        refine ⟨(k.encode, some v),
          List.mem_filter.mpr ⟨hmem, decide_eq_true ⟨h1, h2⟩⟩, ?_⟩
        show (some v).map (fun w => (Key.decode k.encode, w)) = some (k, v)
        simp [Key.decode_encode]
    · have hpf : List.Pairwise (fun a b => a.1 < b.1)
          (st.mem.filter (fun p => decide (k1.encode ≤ p.1 ∧ p.1 < k2.encode))) :=
        hinv.1.filter _
      apply List.pairwise_filterMap.mpr
      apply hpf.imp_of_mem
      intro a b ha hb hab
      intro x hx y hy
      have ham : a ∈ st.mem := (List.mem_filter.mp ha).1
      have hbm : b ∈ st.mem := (List.mem_filter.mp hb).1
      rcases Option.map_eq_some'.mp (Option.mem_def.mp hx) with ⟨w1, hw1, hg1⟩
      rcases Option.map_eq_some'.mp (Option.mem_def.mp hy) with ⟨w2, hw2, hg2⟩
      rw [← hg1, ← hg2]
      show (Key.decode a.1).encode < (Key.decode b.1).encode
      rw [Key.encode_decode a.1 (hinv.2 a ham), Key.encode_decode b.1 (hinv.2 b hbm)]
      exact hab

/-- Witness for C6: a one-entry engine scanned over a range holding it. -/
theorem c6_witness :
    Inv (KVStorage.put freshState key0 value0).mem
    ∧ key0.encode ≤ key1.encode
    ∧ (KVStorage.scan (KVStorage.put freshState key0 value0) key0 key1 ≠ none
      ∧ ∀ l, KVStorage.scan (KVStorage.put freshState key0 value0) key0 key1 = some l →
          (∀ k v, (k, v) ∈ l ↔
            (key0.encode ≤ k.encode ∧ k.encode < key1.encode
              ∧ lookupS k.encode (KVStorage.put freshState key0 value0).mem
                  = some (some v)))
          ∧ List.Pairwise (fun a b : Key × Value => a.1.encode < b.1.encode) l) :=
  ⟨⟨by decide, by decide⟩, by decide,
   c6_scan_spec (KVStorage.put freshState key0 value0) key0 key1
     ⟨by decide, by decide⟩ (by decide)⟩

/-- Claim C7 (amended): during recovery a record whose key or value payload
is cut short aborts `from_existing_file` with an error, but a record with an
unknown tag byte is NOT treated as corrupt: its tag and the following
8 key bytes are consumed and replay silently continues.  Only the standalone
`DiskLogReader::next_log` — which the recovery path does not use — rejects
an unknown tag byte as corrupt. -/
theorem c7_recovery_corrupt (t : Byte) (k8 more : List Byte) (m : Storage) :
    (k8.length < KEY_SIZE → from_existing_file (t :: k8) m = Except.error ())
    ∧ (t.val ≠ 0x50 → t.val ≠ 0x44 → k8.length = KEY_SIZE →
        from_existing_file (t :: (k8 ++ more)) m = from_existing_file more m)
    ∧ (k8.length = KEY_SIZE → more.length < VALUE_SIZE →
        from_existing_file ((0x50 : Byte) :: (k8 ++ more)) m = Except.error ())
    ∧ (t.val ≠ 0x50 → t.val ≠ 0x44 → ¬ (k8.length < KEY_SIZE) →
        next_log (t :: k8) = Except.error ()) := by
  refine ⟨from_existing_file_key_trunc t k8 m,
    fun h1 h2 h3 => from_existing_file_skip_step t k8 more m h1 h2 h3,
    fun h3 hm => from_existing_file_val_trunc k8 more m h3 hm,
    fun h1 h2 hk => ?_⟩
  simp only [next_log]
  rw [dif_neg hk, if_neg h1, if_neg h2]

/-- Witness for C7 (amended): concrete truncated, unknown-tag and
`next_log` inputs. -/
theorem c7_witness :
    from_existing_file ((0x50 : Byte) :: [(0 : Byte)]) [] = Except.error ()
    ∧ from_existing_file ((0x58 : Byte) :: (List.replicate 8 (0 : Byte) ++ [])) []
        = from_existing_file [] []
    ∧ from_existing_file ((0x50 : Byte) :: (List.replicate 8 (0 : Byte) ++ [(1 : Byte)])) []
        = Except.error ()
    ∧ next_log ((0x58 : Byte) :: List.replicate 8 (0 : Byte)) = Except.error () :=
  ⟨(c7_recovery_corrupt (0x50) [(0 : Byte)] [] []).1 (by decide),
   (c7_recovery_corrupt (0x58) (List.replicate 8 (0 : Byte)) [] []).2.1
     (by decide) (by decide) (by decide),
   (c7_recovery_corrupt (0x50) (List.replicate 8 (0 : Byte)) [(1 : Byte)] []).2.2.1
     (by decide) (by decide),
   (c7_recovery_corrupt (0x58) (List.replicate 8 (0 : Byte)) [] []).2.2.2
     (by decide) (by decide) (by decide)⟩

/-- Counterexample for C7 as stated: a record with the unknown tag byte
0x58 followed by 8 key bytes does not abort recovery — replay succeeds with
an empty index, silently skipping the record. -/
theorem c7_counterexample :
    from_existing_file ((0x58 : Byte) :: List.replicate 8 (0 : Byte)) [] = Except.ok []
    ∧ from_existing_file ((0x58 : Byte) :: List.replicate 8 (0 : Byte)) []
        ≠ Except.error () := by
  have h := from_existing_file_skip_step (0x58 : Byte) (List.replicate 8 (0 : Byte)) [] []
    (by decide) (by decide) (by decide)
  rw [List.append_nil] at h
  rw [from_existing_file_nil] at h
  exact ⟨h, by rw [h]; simp⟩

/-- Claim C8: the scan reply stream consists of ⌈M / 248⌉ `KVPairs` chunks —
each non-empty, each carrying at most 248 pairs, their pair lists
concatenating to the scan result in order — followed by exactly one empty
sentinel chunk. -/
theorem c8_scan_chunking (r : List (Key × Value)) :
    handleScanReply r = (chunkPairs r).map serializeKVPairsChunk ++ [[]]
    ∧ (chunkPairs r).length = (r.length + 247) / 248
    ∧ (∀ c ∈ chunkPairs r, c ≠ [] ∧ c.length ≤ 248)
    ∧ (chunkPairs r).flatten = r := by
  refine ⟨rfl, ?_, ?_, chunkPairs_flatten r⟩
  · rw [chunkPairs_length, ROW_PER_CHUNK_eq]
  · intro c hc
    have h := chunkPairs_mem r c hc
    rwa [ROW_PER_CHUNK_eq] at h

/-- Witness for C8 at a concrete one-pair scan result. -/
theorem c8_witness :
    (chunkPairs [(key0, value0)]).length = (1 + 247) / 248
    ∧ (chunkPairs [(key0, value0)]).flatten = [(key0, value0)] :=
  ⟨(c8_scan_chunking [(key0, value0)]).2.1,
   (c8_scan_chunking [(key0, value0)]).2.2.2⟩

/-- Claim C9 (amended): request deserialization fails with a
`MalformedRequest` error exactly when the opcode is `S`/`P`/`G`/`D` with the
wrong total length (17, 265, 9, 9 bytes respectively), or the opcode is
unknown.  The `C` (Close) opcode is the exception to the claim as written:
its length is never checked, so any non-empty buffer starting with `C`
deserializes to `Close`. -/
theorem c9_deserialize_malformed (b : Byte) (rest : List Byte) :
    (deserialize_from (b :: rest) = some (Except.error ()) ↔
      ((b.val = 0x53 ∧ (b :: rest).length ≠ 17)
      ∨ (b.val = 0x50 ∧ (b :: rest).length ≠ 265)
      ∨ (b.val = 0x47 ∧ (b :: rest).length ≠ 9)
      ∨ (b.val = 0x44 ∧ (b :: rest).length ≠ 9)
      ∨ (b.val ≠ 0x53 ∧ b.val ≠ 0x50 ∧ b.val ≠ 0x47 ∧ b.val ≠ 0x44 ∧ b.val ≠ 0x43)))
    ∧ (b.val = 0x43 → deserialize_from (b :: rest) = some (Except.ok Request.close)) := by
  constructor
  · by_cases h53 : b.val = 0x53
    · by_cases hlen : rest.length = KEY_SIZE * 2
      · simp [deserialize_from, h53, hlen, KEY_SIZE]
      · simp [deserialize_from, h53, hlen, KEY_SIZE]
    · by_cases h50 : b.val = 0x50
      · by_cases hlen : rest.length = KEY_SIZE + VALUE_SIZE
        · simp [deserialize_from, h53, h50, hlen, KEY_SIZE, VALUE_SIZE]
        · simp [deserialize_from, h53, h50, hlen, KEY_SIZE, VALUE_SIZE]
      · by_cases h47 : b.val = 0x47
        · by_cases hlen : rest.length = KEY_SIZE
          · simp [deserialize_from, h53, h50, h47, hlen, KEY_SIZE]
          · simp [deserialize_from, h53, h50, h47, hlen, KEY_SIZE]
        · by_cases h44 : b.val = 0x44
          · by_cases hlen : rest.length = KEY_SIZE
            · simp [deserialize_from, h53, h50, h47, h44, hlen, KEY_SIZE]
            · simp [deserialize_from, h53, h50, h47, h44, hlen, KEY_SIZE]
          · by_cases h43 : b.val = 0x43
            · simp [deserialize_from, h53, h50, h47, h44, h43]
            · simp [deserialize_from, h53, h50, h47, h44, h43]
  · intro h43
    have h53 : ¬ b.val = 0x53 := by omega
    have h50 : ¬ b.val = 0x50 := by omega
    have h47 : ¬ b.val = 0x47 := by omega
    have h44 : ¬ b.val = 0x44 := by omega
    simp [deserialize_from, h53, h50, h47, h44, h43]

/-- Witness for C9 (amended): a concrete wrong-length Get request is
rejected, and a concrete oversized Close request is accepted. -/
theorem c9_witness :
    deserialize_from ((0x47 : Byte) :: [(0 : Byte)]) = some (Except.error ())
    ∧ deserialize_from ((0x43 : Byte) :: [(0 : Byte)]) = some (Except.ok Request.close) :=
  ⟨(c9_deserialize_malformed (0x47) [(0 : Byte)]).1.mpr
     (Or.inr (Or.inr (Or.inl ⟨rfl, by decide⟩))),
   (c9_deserialize_malformed (0x43) [(0 : Byte)]).2 rfl⟩

/-- Counterexample for C9 as stated: a 2-byte buffer with the `C` opcode has
the wrong length for Close (1 byte), yet deserialization returns a `Request`
instead of a `MalformedRequest` error. -/
theorem c9_counterexample :
    deserialize_from ((0x43 : Byte) :: [(0 : Byte)]) = some (Except.ok Request.close)
    ∧ ((0x43 : Byte) :: [(0 : Byte)]).length ≠ 1 := by
  exact ⟨rfl, by decide⟩

/-- Claim C10: when K1 is lexicographically greater than K2, `scan(K1, K2)`
panics (the `BTreeMap::range` call aborts on an inverted range, modelled by
`none`) rather than returning an empty result. -/
theorem c10_scan_panics (st : KVState) (k1 k2 : Key)
    (h : lexLt k2.val k1.val = true) :
    KVStorage.scan st k1 k2 = none := by
  have hlen : k2.val.length = k1.val.length := by rw [k1.property, k2.property]
  have henc : k2.encode < k1.encode := (lexLt_iff_encodeRaw _ _ hlen).mp h
  unfold KVStorage.scan
  rw [if_neg (by omega)]

/-- Witness for C10: scanning with the inverted concrete range panics. -/
theorem c10_witness :
    lexLt key0.val key1.val = true
    ∧ KVStorage.scan freshState key1 key0 = none :=
  ⟨by decide, c10_scan_panics freshState key1 key0 (by decide)⟩

end KVSys
